import Mathlib

/-!
Verification development for `makeServiceAreas.py` (VANatHeritage/ServiceAreas).

The program builds raster service areas by alternating cost-distance runs on a
local-road cost surface and a limited-access-highway cost surface, connected at
ramp points.  Rasters are modelled as functions from an abstract cell type `C`
to `WithTop ℚ`, where `⊤` stands for NoData.  The external cost-distance oracle
(`arcpy.sa.CostDistance`) is modelled by its contract: for each cell, the
minimum over the seed points of (seed start cost + travel cost from the seed to
the cell on the given surface), with cells whose accumulated cost exceeds the
cutoff set to NoData.  Travel costs on a surface are an abstract function
`d : C → C → WithTop ℚ`; properties of a real accumulated-cost field
(`d a a = 0`, `0 ≤ d a b`) are explicit hypotheses of the theorems that
need them.
-/

namespace ServiceAreas

/-- Raster cell values: a cost in ℚ, or `⊤` for NoData / unreachable. -/
abbrev Cost := WithTop ℚ

variable {C : Type}

/-- Cutoff filter of the cost-distance oracle: values exceeding the optional
`maxDistance` argument become NoData (`makeServiceAreas.py` passes `grpMaxCost`
as third argument of every `arcpy.sa.CostDistance` call, lines 189, 219, 246). -/
def applyCut (cut : Option ℚ) (v : Cost) : Cost :=
  match cut with
  | Option.none => v
  | Option.some c => if v ≤ (c : Cost) then v else ⊤

/-- Model of the external cost-distance oracle `arcpy.sa.CostDistance
(sources, costSurface, maxDistance, source_start_cost)`: at each cell, the
minimum over seeds of (start cost + surface travel cost), filtered by the
cutoff.  A seed with start cost `⊤` never contributes (`⊤ + d = ⊤`). -/
def costDist (seeds : List (C × Cost)) (d : C → C → Cost) (cut : Option ℚ) :
    C → Cost :=
  fun x => applyCut cut ((seeds.map (fun s => s.2 + d s.1 x)).foldr min ⊤)

/-- One group's solver inputs: the two cost surfaces (`costRastLoc`,
`costRastHwy`, as travel costs between cells), the group's access features,
the ramp points and the group's maximum cost (`grpMaxCost`). -/
structure Config (C : Type) where
  dL : C → C → Cost
  dH : C → C → Cost
  origins : List C
  connectors : List C
  cutoff : Option ℚ

/-- Seed extraction: `ExtractValuesToPoints` on the ramp points followed by the
`RASTERVALU IS NOT NULL` (resp. `costLAH IS NOT NULL`) layer filter
(lines 195-196, 225-228, 252-253): the ramp points where the latest raster has
a value, each carrying that value as its start cost. -/
def seedsOf (conns : List C) (r : C → Cost) : List (C × Cost) :=
  (conns.filter (fun a => decide (r a ≠ ⊤))).map (fun a => (a, r a))

/-- Pass 1, line 189: `cd1 = arcpy.sa.CostDistance(cdpts, costRastLoc,
grpMaxCost)` — local cost distance from the group's access features, with no
start-cost offset. -/
def pass1 (cfg : Config C) : C → Cost :=
  costDist (cfg.origins.map (fun o => (o, (0 : Cost)))) cfg.dL cfg.cutoff

/-- The surface used by the pass that follows pass `k` (0-based): the loop
alternates highway (line 219) and local (line 246) cost distances. -/
def sheetAt (cfg : Config C) (k : ℕ) : C → C → Cost :=
  if k % 2 = 0 then cfg.dH else cfg.dL

/-- The sequence of pass rasters the solver can produce: `sampSeq cfg 0` is
pass 1 (local), and each next pass is a cost distance seeded at the ramp points
that carry a value in the previous pass, on the alternating surface
(highway for odd-numbered passes, local for even ones; lines 219 and 246). -/
def sampSeq (cfg : Config C) : ℕ → C → Cost
  | 0 => pass1 cfg
  | p + 1 =>
      costDist (seedsOf cfg.connectors (sampSeq cfg p)) (sheetAt cfg p)
        cfg.cutoff

/-- The accumulated cost along one candidate route that visits the ramp points
`s 0, s 1, …` in order, changing sheet at every visit: `chainVal cfg s k` is
the cost at `s k` after arriving at `s 0` on pass 1 and then travelling
`s 0 → s 1 → …` on the alternating surfaces, with the cutoff applied at every
pass boundary exactly as the oracle applies it.  Used to reason about which
values the pass sequence can still improve. -/
def chainVal (cfg : Config C) (s : ℕ → C) : ℕ → Cost
  | 0 => pass1 cfg (s 0)
  | k + 1 =>
      applyCut cfg.cutoff (chainVal cfg s k + sheetAt cfg k (s k) (s (k + 1)))

/-- The `notin` computation of lines 231-239 and 257-265: the ramp ids that
have a value in the latest raster and are either absent from the previous
sheet's record or cheaper by strictly more than one minute
(`next[a] - prev[a] < -1`, written here as `next a + 1 < prev a`). -/
def newOrImproved (conns : List C) (prev next : C → Cost) : List C :=
  conns.filter (fun a =>
    decide (next a ≠ ⊤) &&
      (decide (prev a = ⊤) || decide (next a + 1 < prev a)))

/-- The `while len(notin) != 0` loop of lines 213-266, as a fuel-indexed
recursion; each fuel unit is one loop iteration (one highway run, the `notin`
check, and — unless the check stops the loop — one local run and its check).
`Option.none` marks fuel exhaustion. -/
def loop (cfg : Config C) :
    ℕ → (C → Cost) → List (C → Cost) → Option (List (C → Cost))
  | 0, _, _ => Option.none
  | fuel + 1, locr, passes =>
      let lahr := costDist (seedsOf cfg.connectors locr) cfg.dH cfg.cutoff
      if (newOrImproved cfg.connectors locr lahr).isEmpty then
        Option.some (passes ++ [lahr])
      else
        let locr2 := costDist (seedsOf cfg.connectors lahr) cfg.dL cfg.cutoff
        if (newOrImproved cfg.connectors lahr locr2).isEmpty then
          Option.some (passes ++ [lahr, locr2])
        else loop cfg fuel locr2 (passes ++ [lahr, locr2])

/-- Line 198: `int(arcpy.GetCount_management(rp1s)[0]) == 0` negated — true
when at least one ramp point sampled a value from pass 1. -/
def rampsReached (cfg : Config C) : Bool :=
  cfg.connectors.any (fun a => decide (pass1 cfg a ≠ ⊤))

/-- The ordered list of pass rasters (`cds`) one group's solve produces:
pass 1 alone if no ramp was reached (lines 198-210), otherwise pass 1 followed
by the passes of the alternation loop.  The loop is run with fuel
`2 * (number of connectors)`; the default branch of `getD` is never taken
for cost surfaces with zero self-distance and nonnegative travel costs
(theorem `C2_loop_terminates`). -/
def solvePasses (cfg : Config C) : List (C → Cost) :=
  if rampsReached cfg then
    (loop cfg (2 * cfg.connectors.length) (pass1 cfg) [pass1 cfg]).getD
      [pass1 cfg]
  else [pass1 cfg]

/-- Model of `arcpy.sa.CellStatistics(cds, "MINIMUM", "DATA")` (lines 271-279):
cellwise minimum that ignores NoData; a cell is NoData only when every input
raster is NoData there.  In `WithTop ℚ` this is a plain fold of `min` with
neutral element `⊤`. -/
def cellMin (rs : List (C → Cost)) : C → Cost :=
  fun x => (rs.map (fun r => r x)).foldr min ⊤

/-- Round half to even, as `numpy.round` with `digits=0` does (and as Python's
builtin `round` does). -/
def roundHalfEven (q : ℚ) : ℤ :=
  if q - (⌊q⌋ : ℚ) < 1 / 2 then ⌊q⌋
  else if (1 : ℚ) / 2 < q - (⌊q⌋ : ℚ) then ⌊q⌋ + 1
  else if ⌊q⌋ % 2 = 0 then ⌊q⌋ else ⌊q⌋ + 1

/-- Python's `round(x, 3)` (line 205/274: `areaval = round(..., 3)`). -/
def round3 (q : ℚ) : ℚ := (roundHalfEven (1000 * q) : ℚ) / 1000

/-- The NoData sentinel used by `roundRast` (lines 96-104):
`RasterToNumPyArray(..., nodata_to_value=-999)`. -/
def sentinel : ℚ := -999

/-- Python truthiness of `reset_to` in `if reset_to:` (line 97):
`None`, `0` and `0.0` are falsy. -/
def pyTruthyOpt (o : Option ℚ) : Bool :=
  match o with
  | Option.none => false
  | Option.some v => decide (v ≠ 0)

/-- `roundRast(inRast, outRast, digits=0, reset_to)` of lines 89-107: convert
NoData to the sentinel, then either (`if reset_to:` truthy) reset every
non-sentinel cell to the constant, or round every cell half-to-even
(the program only ever calls it with `digits=0`); finally convert the sentinel
back to NoData (`value_to_nodata=-999`). -/
def roundRast (r : C → Cost) (reset_to : Option ℚ) : C → Cost := fun x =>
  let arrv : ℚ := WithTop.recTopCoe sentinel (fun v => v) (r x)
  let outv : ℚ :=
    if pyTruthyOpt reset_to then
      if arrv ≠ sentinel then reset_to.getD 0 else sentinel
    else (roundHalfEven arrv : ℚ)
  if outv = sentinel then ⊤ else (outv : Cost)

/-- The `attFld` argument: `None`, a string (a field name, or the reserved
word `'round'`), or an integer constant. -/
inductive AttFld where
  | none : AttFld
  | str : String → AttFld
  | int : ℤ → AttFld

/-- The value-policy application of lines 200-208 / 268-277, applied to a cost
raster: `None` keeps the raster; the string `'round'` rounds it; any other
string resets to `round(unique_values(cdpts, attFld)[0], 3)` (the group's
attribute value, given by `lookup`); an integer resets to that integer. -/
def applyAttFld (att : AttFld) (lookup : String → ℚ) (r : C → Cost) :
    C → Cost :=
  match att with
  | AttFld.none => r
  | AttFld.str s =>
      if s = "round" then roundRast r Option.none
      else roundRast r (Option.some (round3 (lookup s)))
  | AttFld.int v => roundRast r (Option.some (v : ℚ))

/-- The composed cost raster a group persists its output from: the cellwise
minimum of all passes when ramps were reached (lines 271-279), pass 1 itself
otherwise (lines 198-210). -/
def composed (cfg : Config C) : C → Cost :=
  if rampsReached cfg then cellMin (solvePasses cfg) else pass1 cfg

/-- The persisted service-area raster of one group (`rastout`): the composed
cost raster with the `attFld` value policy applied. -/
def persisted (cfg : Config C) (att : AttFld) (lookup : String → ℚ) :
    C → Cost :=
  applyAttFld att lookup (composed cfg)

/-- The `maxCost` argument: `None`, a number, or a field name. -/
inductive MaxCost where
  | none : MaxCost
  | num : ℚ → MaxCost
  | fld : String → MaxCost

/-- Python truthiness of the `attFld` argument in `if attFld:` (line 114). -/
def pyTruthyAtt : AttFld → Bool
  | AttFld.none => false
  | AttFld.str s => decide (s ≠ "")
  | AttFld.int v => decide (v ≠ 0)

/-- Python truthiness of the `maxCost` argument in `if not maxCost:`
(line 115). -/
def pyTruthyMax : MaxCost → Bool
  | MaxCost.none => false
  | MaxCost.num v => decide (v ≠ 0)
  | MaxCost.fld s => decide (s ≠ "")

/-- `isinstance(attFld, str)` (line 118). -/
def isStrAtt : AttFld → Bool
  | AttFld.str _ => true
  | _ => false

/-- The string carried by a string-valued `attFld`. -/
def attName : AttFld → String
  | AttFld.str s => s
  | _ => ""

/-- Python truthiness of a list: only the empty list is falsy.  Line 118 wraps
the membership test in a one-element list literal, so `not [attFld in [...]]`
tests the truthiness of a list, not of the membership. -/
def pyTruthyList (l : List Bool) : Bool := !l.isEmpty

/-- The argument checks of lines 113-120, exactly as written: under `if
attFld:`, return early when `not maxCost`, or when `isinstance(attFld, str)
and not [attFld in [a.name for a in arcpy.ListFields(accFeat)]]`.  `true`
means the function prints a message and returns before any other work. -/
def earlyExit (att : AttFld) (maxCost : MaxCost) (fields : List String) :
    Bool :=
  if pyTruthyAtt att then
    if !pyTruthyMax maxCost then true
    else if isStrAtt att && !pyTruthyList [decide (attName att ∈ fields)] then
      true
    else false
  else false

/-- A group id (`grps` entries): a string or an integer (line 157). -/
inductive GrpId where
  | str : String → GrpId
  | int : ℤ → GrpId

/-- The output raster name of a group (lines 158, 162):
`"grp_" + i + "_servArea"`. -/
def rastoutName : GrpId → String
  | GrpId.str s => "grp_" ++ s ++ "_servArea"
  | GrpId.int i => "grp_" ++ toString i ++ "_servArea"

/-- The per-group batch loop of lines 155-283 with the skip-if-exists check of
lines 165-167: fold over the groups carrying the set of existing output names;
a group whose output name exists is skipped (`continue`) with zero oracle
calls; otherwise the group is solved (`passCount g` cost-distance calls) and
its output name is added to the store.  Returns the final store and the
per-group oracle call counts. -/
def runBatch (passCount : GrpId → ℕ) :
    List GrpId → List String → List String × List (GrpId × ℕ)
  | [], store => (store, [])
  | g :: gs, store =>
      if rastoutName g ∈ store then
        ((runBatch passCount gs store).1,
          (g, 0) :: (runBatch passCount gs store).2)
      else
        ((runBatch passCount gs (rastoutName g :: store)).1,
          (g, passCount g) ::
            (runBatch passCount gs (rastoutName g :: store)).2)

/-! ### Concrete instances used for witnesses and counterexamples.
Cells are `Fin 2`: cell 0 carries the group's single access feature, cell 1 is
a ramp point (or a plain target cell when the connector list is empty). -/

/-- Two cells, one origin, one ramp, both surfaces cost 5 between distinct
cells, cutoff 30. -/
def cfgTwo : Config (Fin 2) where
  dL := fun i j => if i = j then 0 else ((5 : ℚ) : Cost)
  dH := fun i j => if i = j then 0 else ((5 : ℚ) : Cost)
  origins := [0]
  connectors := [1]
  cutoff := Option.some 30

/-- Two cells, no ramp points, local travel cost 9.5 between distinct cells,
cutoff 9.6: the rounded output exceeds the cutoff. -/
def cfgRound : Config (Fin 2) where
  dL := fun i j => if i = j then 0 else ((19 / 2 : ℚ) : Cost)
  dH := fun i j => if i = j then 0 else ((19 / 2 : ℚ) : Cost)
  origins := [0]
  connectors := []
  cutoff := Option.some (48 / 5)

/-- Two cells, no ramp points, local travel cost 2.4 between distinct cells,
cutoff 20: used with the constant value policy `attFld = 0`. -/
def cfgConst : Config (Fin 2) where
  dL := fun i j => if i = j then 0 else ((12 / 5 : ℚ) : Cost)
  dH := fun i j => if i = j then 0 else ((12 / 5 : ℚ) : Cost)
  origins := [0]
  connectors := [1]
  cutoff := Option.some 20

/-- Two cells, one ramp point that is unreachable on the local surface:
the solve never reaches a ramp. -/
def cfgIsolated : Config (Fin 2) where
  dL := fun i j => if i = j then 0 else ⊤
  dH := fun i j => if i = j then 0 else ((1 : ℚ) : Cost)
  origins := [0]
  connectors := [1]
  cutoff := Option.some 10

/-! ### Basic lemmas about the cutoff filter and minimum folds -/

lemma applyCut_eq_self_or_top (cut : Option ℚ) (v : Cost) :
    applyCut cut v = v ∨ applyCut cut v = ⊤ := by
  cases cut with
  | none => exact Or.inl rfl
  | some c =>
      by_cases h : v ≤ (c : Cost)
      · exact Or.inl (if_pos h)
      · exact Or.inr (if_neg h)

lemma applyCut_le_cut {c : ℚ} {v : Cost} (h : applyCut (Option.some c) v ≠ ⊤) :
    applyCut (Option.some c) v ≤ (c : Cost) := by
  by_cases hv : v ≤ (c : Cost)
  · simpa [applyCut, if_pos hv] using hv
  · exact absurd (if_neg hv) h

lemma applyCut_mono {cut : Option ℚ} {v w : Cost} (h : v ≤ w) :
    applyCut cut v ≤ applyCut cut w := by
  cases cut with
  | none => exact h
  | some c =>
      by_cases hw : w ≤ (c : Cost)
      · have hv : v ≤ (c : Cost) := le_trans h hw
        simpa [applyCut, if_pos hv, if_pos hw] using h
      · simp [applyCut, if_neg hw]

lemma le_applyCut (cut : Option ℚ) (v : Cost) : v ≤ applyCut cut v := by
  rcases applyCut_eq_self_or_top cut v with h | h
  · rw [h]
  · rw [h]; exact le_top

lemma applyCut_idem (cut : Option ℚ) (v : Cost) :
    applyCut cut (applyCut cut v) = applyCut cut v := by
  cases cut with
  | none => rfl
  | some c =>
      by_cases hv : v ≤ (c : Cost)
      · simp [applyCut, if_pos hv]
      · simp [applyCut, if_neg hv]

lemma foldr_min_le {l : List Cost} {v : Cost} (h : v ∈ l) :
    l.foldr min ⊤ ≤ v := by
  induction l with
  | nil => cases h
  | cons w t ih =>
      rcases List.mem_cons.mp h with rfl | ht
      · exact min_le_left _ _
      · exact le_trans (min_le_right _ _) (ih ht)

lemma foldr_min_eq_top_iff {l : List Cost} :
    l.foldr min ⊤ = ⊤ ↔ ∀ v ∈ l, v = ⊤ := by
  induction l with
  | nil => simp
  | cons w t ih =>
      simp only [List.foldr_cons, min_eq_top, List.mem_cons]
      constructor
      · rintro ⟨rfl, h⟩ v (rfl | hv)
        · rfl
        · exact ih.mp h v hv
      · intro h
        exact ⟨h w (Or.inl rfl), ih.mpr fun v hv => h v (Or.inr hv)⟩

lemma foldr_min_mem {l : List Cost} :
    l.foldr min ⊤ = ⊤ ∨ l.foldr min ⊤ ∈ l := by
  induction l with
  | nil => exact Or.inl rfl
  | cons w t ih =>
      rcases le_total w (t.foldr min ⊤) with h | h
      · exact Or.inr (by simp [min_eq_left h])
      · rcases ih with h2 | h2
        · rcases eq_top_iff.mpr (h2 ▸ h) with rfl
          exact Or.inl (by simp [h2])
        · exact Or.inr (by rcases min_choice w (t.foldr min ⊤) with hm | hm <;>
            simp [hm, List.mem_cons]; exact Or.inr h2)

/-! ### Lemmas about the cost-distance oracle model -/

lemma costDist_le_seed {seeds : List (C × Cost)} {d : C → C → Cost}
    {cut : Option ℚ} {b : C} {v : Cost} (h : (b, v) ∈ seeds) (x : C) :
    costDist seeds d cut x ≤ applyCut cut (v + d b x) := by
  apply applyCut_mono
  exact foldr_min_le (List.mem_map.mpr ⟨(b, v), h, rfl⟩)

lemma costDist_ne_top_le_cut {seeds : List (C × Cost)} {d : C → C → Cost}
    {c : ℚ} {x : C} (h : costDist seeds d (Option.some c) x ≠ ⊤) :
    costDist seeds d (Option.some c) x ≤ (c : Cost) :=
  applyCut_le_cut h

lemma costDist_applyCut (seeds : List (C × Cost)) (d : C → C → Cost)
    (cut : Option ℚ) (x : C) :
    applyCut cut (costDist seeds d cut x) = costDist seeds d cut x :=
  applyCut_idem cut _

lemma mem_seedsOf {conns : List C} {r : C → Cost} {a : C}
    (ha : a ∈ conns) (hv : r a ≠ ⊤) : (a, r a) ∈ seedsOf conns r := by
  apply List.mem_map.mpr
  refine ⟨a, ?_, rfl⟩
  exact List.mem_filter.mpr ⟨ha, by simpa using hv⟩

/-! ### The pass sequence: cutoff invariant and monotonicity -/

lemma sampSeq_applyCut (cfg : Config C) (p : ℕ) (x : C) :
    applyCut cfg.cutoff (sampSeq cfg p x) = sampSeq cfg p x := by
  cases p with
  | zero => exact costDist_applyCut _ _ _ _
  | succ q => exact costDist_applyCut _ _ _ _

lemma sampSeq_ne_top_le_cut {cfg : Config C} {c : ℚ}
    (hc : cfg.cutoff = Option.some c) {p : ℕ} {x : C}
    (h : sampSeq cfg p x ≠ ⊤) : sampSeq cfg p x ≤ (c : Cost) := by
  rw [← sampSeq_applyCut cfg p x, hc] at h ⊢
  exact applyCut_le_cut h

/-- One step of cross-pass monotonicity: seeding the next pass at the ramp
points with their current values can only keep or lower the value at each
ramp point, since a seed reaches its own cell at its start cost. -/
lemma sampSeq_succ_le (cfg : Config C)
    (hL0 : ∀ a, cfg.dL a a = 0) (hH0 : ∀ a, cfg.dH a a = 0)
    {a : C} (ha : a ∈ cfg.connectors) (p : ℕ) :
    sampSeq cfg (p + 1) a ≤ sampSeq cfg p a := by
  by_cases hv : sampSeq cfg p a = ⊤
  · rw [hv]; exact le_top
  · have hseed := mem_seedsOf ha hv
    have hd : sheetAt cfg p a a = 0 := by
      by_cases hp : p % 2 = 0 <;> simp [sheetAt, hp, hL0, hH0]
    calc sampSeq cfg (p + 1) a
        ≤ applyCut cfg.cutoff (sampSeq cfg p a + sheetAt cfg p a a) :=
          costDist_le_seed hseed a
      _ = applyCut cfg.cutoff (sampSeq cfg p a) := by rw [hd, add_zero]
      _ = sampSeq cfg p a := sampSeq_applyCut cfg p a

lemma sampSeq_antitone (cfg : Config C)
    (hL0 : ∀ a, cfg.dL a a = 0) (hH0 : ∀ a, cfg.dH a a = 0)
    {a : C} (ha : a ∈ cfg.connectors) {p q : ℕ} (hpq : p ≤ q) :
    sampSeq cfg q a ≤ sampSeq cfg p a := by
  induction q with
  | zero => cases Nat.le_zero.mp hpq; rfl
  | succ r ih =>
      rcases Nat.lt_or_ge p (r + 1) with h | h
      · exact le_trans (sampSeq_succ_le cfg hL0 hH0 ha r)
          (ih (Nat.lt_succ_iff.mp h))
      · cases Nat.le_antisymm hpq h; rfl

/-! ### The alternation loop produces successive entries of `sampSeq` -/

lemma sampSeq_even_succ (cfg : Config C) (t : ℕ) :
    sampSeq cfg (2 * t + 1) =
      costDist (seedsOf cfg.connectors (sampSeq cfg (2 * t))) cfg.dH
        cfg.cutoff := by
  have h : (2 * t) % 2 = 0 := by omega
  simp [sampSeq, sheetAt, h]

lemma sampSeq_odd_succ (cfg : Config C) (t : ℕ) :
    sampSeq cfg (2 * t + 2) =
      costDist (seedsOf cfg.connectors (sampSeq cfg (2 * t + 1))) cfg.dL
        cfg.cutoff := by
  have h : (2 * t + 1) % 2 = 1 := by omega
  show sampSeq cfg ((2 * t + 1) + 1) = _
  simp [sampSeq, sheetAt, h]

lemma loop_succ_eq (cfg : Config C) (f t : ℕ) (P : List (C → Cost)) :
    loop cfg (f + 1) (sampSeq cfg (2 * t)) P =
      if (newOrImproved cfg.connectors (sampSeq cfg (2 * t))
            (sampSeq cfg (2 * t + 1))).isEmpty then
        Option.some (P ++ [sampSeq cfg (2 * t + 1)])
      else if (newOrImproved cfg.connectors (sampSeq cfg (2 * t + 1))
            (sampSeq cfg (2 * t + 2))).isEmpty then
        Option.some (P ++ [sampSeq cfg (2 * t + 1), sampSeq cfg (2 * t + 2)])
      else
        loop cfg f (sampSeq cfg (2 * t + 2))
          (P ++ [sampSeq cfg (2 * t + 1), sampSeq cfg (2 * t + 2)]) := by
  rw [loop, ← sampSeq_even_succ cfg t, ← sampSeq_odd_succ cfg t]

lemma range_map_two {α : Type} (g : ℕ → α) (m : ℕ) :
    (List.range (m + 2)).map g =
      g 0 :: g 1 :: (List.range m).map (fun k => g (k + 2)) := by
  rw [List.range_succ_eq_map, List.range_succ_eq_map]
  simp only [List.map_cons, List.map_map]
  rfl

lemma loop_shape (cfg : Config C) (f : ℕ) : ∀ (t : ℕ) (P : List (C → Cost)),
    loop cfg f (sampSeq cfg (2 * t)) P = Option.none ∨
    ∃ m, 1 ≤ m ∧ loop cfg f (sampSeq cfg (2 * t)) P =
      Option.some (P ++ (List.range m).map
        (fun k => sampSeq cfg (2 * t + 1 + k))) := by
  induction f with
  | zero => intro t P; exact Or.inl rfl
  | succ f ih =>
      intro t P
      rw [loop_succ_eq]
      by_cases h1 : (newOrImproved cfg.connectors (sampSeq cfg (2 * t))
          (sampSeq cfg (2 * t + 1))).isEmpty
      · refine Or.inr ⟨1, le_refl 1, ?_⟩
        rw [if_pos h1]
        have hr1 : List.range 1 = [0] := rfl
        simp [hr1]
      · by_cases h2 : (newOrImproved cfg.connectors (sampSeq cfg (2 * t + 1))
            (sampSeq cfg (2 * t + 2))).isEmpty
        · refine Or.inr ⟨2, by omega, ?_⟩
          rw [if_neg h1, if_pos h2,
            range_map_two (fun k => sampSeq cfg (2 * t + 1 + k)) 0]
          have h5 : 2 * t + 1 + 0 = 2 * t + 1 := by omega
          have h6 : 2 * t + 1 + 1 = 2 * t + 2 := by omega
          simp [h5, h6]
        · rw [if_neg h1, if_neg h2]
          have h3 : 2 * (t + 1) = 2 * t + 2 := by ring
          rcases h3 ▸ ih (t + 1)
              (P ++ [sampSeq cfg (2 * t + 1), sampSeq cfg (2 * t + 2)]) with
            hnone | ⟨m, hm, hsome⟩
          · exact Or.inl hnone
          · refine Or.inr ⟨m + 2, by omega, ?_⟩
            rw [hsome, range_map_two
              (fun k => sampSeq cfg (2 * t + 1 + k)) m]
            have h4 : ∀ k, 2 * t + 2 + 1 + k = 2 * t + 1 + (k + 2) := by
              intro k; omega
            have h5 : 2 * t + 1 + 0 = 2 * t + 1 := by omega
            have h6 : 2 * t + 1 + 1 = 2 * t + 2 := by omega
            simp only [List.append_assoc, List.cons_append, List.nil_append,
              h4, h5, h6]

/-- Whatever the surfaces are, the pass list a solve produces is an initial
segment of the `sampSeq` sequence: pass 1, then the loop's passes in order. -/
lemma solvePasses_eq_range_map (cfg : Config C) :
    ∃ m, 1 ≤ m ∧ solvePasses cfg = (List.range m).map (sampSeq cfg) := by
  unfold solvePasses
  by_cases hr : rampsReached cfg
  · rw [if_pos hr]
    have h0 : sampSeq cfg (2 * 0) = pass1 cfg := rfl
    rcases loop_shape cfg (2 * cfg.connectors.length) 0 [pass1 cfg] with
      hnone | ⟨m, hm, hsome⟩
    · rw [h0] at hnone
      rw [hnone]
      refine ⟨1, le_refl 1, ?_⟩
      have hr1 : List.range 1 = [0] := rfl
      simp [hr1]
      rfl
    · rw [h0] at hsome
      rw [hsome]
      refine ⟨m + 1, by omega, ?_⟩
      rw [List.range_succ_eq_map, List.map_cons, List.map_map]
      simp only [Option.getD_some, List.singleton_append]
      have h4 : ∀ k, 2 * 0 + 1 + k = k + 1 := by intro k; omega
      simp only [h4]
      rfl
  · rw [if_neg hr]
    refine ⟨1, le_refl 1, ?_⟩
    have hr1 : List.range 1 = [0] := rfl
    simp [hr1]
    rfl

/-- The first pass of any solve is pass 1. -/
lemma solvePasses_head (cfg : Config C) :
    ∃ t, solvePasses cfg = pass1 cfg :: t := by
  rcases solvePasses_eq_range_map cfg with ⟨m, hm, heq⟩
  rcases Nat.exists_eq_add_of_le hm with ⟨m2, rfl⟩
  refine ⟨(List.range m2).map (fun k => sampSeq cfg (k + 1)), ?_⟩
  rw [heq]
  have h1 : 1 + m2 = m2 + 1 := by omega
  rw [h1, List.range_succ_eq_map, List.map_cons, List.map_map]
  rfl

/-! ### Chain values: candidate routes through the ramp points -/

lemma applyCut_top (cut : Option ℚ) : applyCut cut ⊤ = ⊤ := by
  cases cut with
  | none => rfl
  | some c => simp [applyCut]

lemma not_add_one_lt_self (x : Cost) : ¬ x + 1 < x := by
  intro h
  exact absurd (lt_of_le_of_lt (le_add_of_nonneg_right zero_le_one) h)
    (lt_irrefl x)

lemma mem_seedsOf_elim {conns : List C} {r : C → Cost} {bv : C × Cost}
    (h : bv ∈ seedsOf conns r) :
    bv.1 ∈ conns ∧ r bv.1 ≠ ⊤ ∧ bv.2 = r bv.1 := by
  rcases List.mem_map.mp h with ⟨b, hb, rfl⟩
  rcases List.mem_filter.mp hb with ⟨hmem, hfilt⟩
  exact ⟨hmem, by simpa using hfilt, rfl⟩

lemma sheetAt_nonneg (cfg : Config C)
    (hLn : ∀ a b, 0 ≤ cfg.dL a b) (hHn : ∀ a b, 0 ≤ cfg.dH a b)
    (k : ℕ) (a b : C) : 0 ≤ sheetAt cfg k a b := by
  by_cases hk : k % 2 = 0 <;> simp [sheetAt, hk, hLn, hHn]

lemma chainVal_congr (cfg : Config C) (s s2 : ℕ → C) :
    ∀ p, (∀ k, k ≤ p → s k = s2 k) → chainVal cfg s p = chainVal cfg s2 p := by
  intro p
  induction p with
  | zero => intro h; show pass1 cfg (s 0) = pass1 cfg (s2 0); rw [h 0 (by omega)]
  | succ p ih =>
      intro h
      show applyCut _ (chainVal cfg s p + sheetAt cfg p (s p) (s (p + 1))) =
        applyCut _ (chainVal cfg s2 p + sheetAt cfg p (s2 p) (s2 (p + 1)))
      rw [ih (fun k hk => h k (by omega)), h p (by omega), h (p + 1) (by omega)]

lemma chainVal_mono (cfg : Config C)
    (hLn : ∀ a b, 0 ≤ cfg.dL a b) (hHn : ∀ a b, 0 ≤ cfg.dH a b)
    (s : ℕ → C) {k m : ℕ} (hkm : k ≤ m) :
    chainVal cfg s k ≤ chainVal cfg s m := by
  induction m with
  | zero => cases Nat.le_zero.mp hkm; rfl
  | succ m ih =>
      rcases Nat.lt_or_ge k (m + 1) with h | h
      · refine le_trans (ih (Nat.lt_succ_iff.mp h)) ?_
        refine le_trans (le_add_of_nonneg_right
          (sheetAt_nonneg cfg hLn hHn m (s m) (s (m + 1)))) ?_
        exact le_applyCut _ _
      · cases Nat.le_antisymm hkm h; rfl

/-- Every chain through the ramp points is an upper bound for the
corresponding pass sample: the oracle's pass never does worse than any one
candidate route. -/
lemma sampSeq_le_chainVal (cfg : Config C) (s : ℕ → C) :
    ∀ p, (∀ k, k ≤ p → s k ∈ cfg.connectors) →
      sampSeq cfg p (s p) ≤ chainVal cfg s p := by
  intro p
  induction p with
  | zero => intro _; exact le_refl _
  | succ p ih =>
      intro hs
      by_cases hv : sampSeq cfg p (s p) = ⊤
      · have hc : chainVal cfg s p = ⊤ :=
          top_le_iff.mp (hv ▸ ih (fun k hk => hs k (by omega)))
        show sampSeq cfg (p + 1) (s (p + 1)) ≤
          applyCut cfg.cutoff (chainVal cfg s p + _)
        rw [hc, top_add, applyCut_top]
        exact le_top
      · have hseed := mem_seedsOf (hs p (by omega)) hv
        calc sampSeq cfg (p + 1) (s (p + 1))
            ≤ applyCut cfg.cutoff (sampSeq cfg p (s p) +
                sheetAt cfg p (s p) (s (p + 1))) := costDist_le_seed hseed _
          _ ≤ applyCut cfg.cutoff (chainVal cfg s p +
                sheetAt cfg p (s p) (s (p + 1))) :=
              applyCut_mono (add_le_add_right (ih (fun k hk => hs k (by omega))) _)
          _ = chainVal cfg s (p + 1) := rfl

/-- Every pass sample is realised by some chain through the ramp points. -/
lemma exists_chain (cfg : Config C) :
    ∀ (p : ℕ) (a : C), a ∈ cfg.connectors →
      ∃ s : ℕ → C, (∀ k, s k ∈ cfg.connectors) ∧ s p = a ∧
        chainVal cfg s p ≤ sampSeq cfg p a := by
  intro p
  induction p with
  | zero => intro a ha; exact ⟨fun _ => a, fun _ => ha, rfl, le_refl _⟩
  | succ p ih =>
      intro a ha
      have hss : sampSeq cfg (p + 1) a =
          applyCut cfg.cutoff
            (((seedsOf cfg.connectors (sampSeq cfg p)).map
              (fun s0 => s0.2 + sheetAt cfg p s0.1 a)).foldr min ⊤) := rfl
      rcases foldr_min_mem (l := (seedsOf cfg.connectors (sampSeq cfg p)).map
          (fun s0 => s0.2 + sheetAt cfg p s0.1 a)) with htop | hmem
      · refine ⟨fun _ => a, fun _ => ha, rfl, ?_⟩
        rw [hss, htop, applyCut_top]
        exact le_top
      · rcases List.mem_map.mp hmem with ⟨bv, hbv, hfold⟩
        rcases mem_seedsOf_elim hbv with ⟨hb, _, hv⟩
        rcases ih bv.1 hb with ⟨s, hsv, hsp, hsle⟩
        refine ⟨fun k => if k ≤ p then s k else a, ?_, ?_, ?_⟩
        · intro k
          by_cases hk : k ≤ p
          · simpa [hk] using hsv k
          · simpa [hk] using ha
        · simp
        · show applyCut cfg.cutoff
            (chainVal cfg (fun k => if k ≤ p then s k else a) p +
              sheetAt cfg p (if p ≤ p then s p else a)
                (if p + 1 ≤ p then s (p + 1) else a)) ≤ _
          have hc : chainVal cfg (fun k => if k ≤ p then s k else a) p =
              chainVal cfg s p :=
            (chainVal_congr cfg s _ p (fun k hk => by simp [hk])).symm
          rw [hc, if_pos (le_refl p), if_neg (by omega), hsp, hss, ← hfold,
            hv]
          exact applyCut_mono (add_le_add_right hsle _)

/-- Pigeonhole: a chain that stays in the connector list and is long enough
revisits some connector at two positions of equal parity. -/
lemma exists_even_repeat {conns : List C} (s : ℕ → C)
    (hs : ∀ k, s k ∈ conns) {p : ℕ} (hp : 2 * conns.length ≤ p) :
    ∃ i j, i < j ∧ j ≤ p ∧ (j - i) % 2 = 0 ∧ s i = s j := by
  classical
  have hcard : conns.toFinset.card < (Finset.range (conns.length + 1)).card := by
    rw [Finset.card_range]
    exact Nat.lt_succ_of_le (List.toFinset_card_le conns)
  have hmaps : ∀ m ∈ Finset.range (conns.length + 1),
      s (2 * m) ∈ conns.toFinset :=
    fun m _ => List.mem_toFinset.mpr (hs (2 * m))
  rcases Finset.exists_ne_map_eq_of_card_lt_of_maps_to hcard hmaps with
    ⟨m1, hm1, m2, hm2, hne, heq⟩
  have hb1 : m1 ≤ conns.length := Nat.lt_succ_iff.mp (Finset.mem_range.mp hm1)
  have hb2 : m2 ≤ conns.length := Nat.lt_succ_iff.mp (Finset.mem_range.mp hm2)
  rcases lt_or_gt_of_ne hne with h | h
  · exact ⟨2 * m1, 2 * m2, by omega, by omega, by omega, heq⟩
  · exact ⟨2 * m2, 2 * m1, by omega, by omega, by omega, heq.symm⟩

/-- Cutting the revisited stretch out of a chain does not increase any later
chain value. -/
lemma chainVal_splice (cfg : Config C)
    (hLn : ∀ a b, 0 ≤ cfg.dL a b) (hHn : ∀ a b, 0 ≤ cfg.dH a b)
    (s s2 : ℕ → C) {i j : ℕ} (hij : i < j) (hpar : (j - i) % 2 = 0)
    (hrep : s i = s j)
    (hs2 : ∀ k, s2 k = if k ≤ i then s k else s (k + (j - i))) :
    ∀ m, chainVal cfg s2 (i + m) ≤ chainVal cfg s (j + m) := by
  intro m
  induction m with
  | zero =>
      have h1 : chainVal cfg s2 i = chainVal cfg s i :=
        (chainVal_congr cfg s s2 i (fun k hk => by rw [hs2 k, if_pos hk])).symm
      show chainVal cfg s2 i ≤ chainVal cfg s j
      rw [h1]
      exact chainVal_mono cfg hLn hHn s (le_of_lt hij)
  | succ m ih =>
      have hv2 : s2 (i + m + 1) = s (j + m + 1) := by
        rw [hs2, if_neg (by omega)]
        congr 1
        omega
      have hv1 : s2 (i + m) = s (j + m) := by
        by_cases hm : m = 0
        · subst hm
          rw [Nat.add_zero, Nat.add_zero, hs2, if_pos (le_refl i), hrep]
        · rw [hs2, if_neg (by omega)]
          congr 1
          omega
      have hsh : sheetAt cfg (i + m) = sheetAt cfg (j + m) := by
        have hmod : (i + m) % 2 = (j + m) % 2 := by omega
        simp [sheetAt, hmod]
      show applyCut _ (chainVal cfg s2 (i + m) +
          sheetAt cfg (i + m) (s2 (i + m)) (s2 (i + m + 1))) ≤
        applyCut _ (chainVal cfg s (j + m) +
          sheetAt cfg (j + m) (s (j + m)) (s (j + m + 1)))
      rw [hv1, hv2, hsh]
      exact applyCut_mono (add_le_add_right ih _)

/-- Stabilization: after `2 × (number of connectors)` passes every further
pass leaves every connector's sample unchanged.  Any chain that is long
enough revisits a connector with equal parity, so the revisited stretch can
be cut out, producing an equally good strictly shorter chain; combined with
cross-pass monotonicity the samples are squeezed into equality. -/
lemma sampSeq_stabilizes (cfg : Config C)
    (hL0 : ∀ a, cfg.dL a a = 0) (hH0 : ∀ a, cfg.dH a a = 0)
    (hLn : ∀ a b, 0 ≤ cfg.dL a b) (hHn : ∀ a b, 0 ≤ cfg.dH a b)
    {a : C} (ha : a ∈ cfg.connectors) {q : ℕ}
    (hq : 2 * cfg.connectors.length ≤ q) :
    sampSeq cfg (q + 1) a = sampSeq cfg q a := by
  refine le_antisymm (sampSeq_succ_le cfg hL0 hH0 ha q) ?_
  rcases exists_chain cfg (q + 1) a ha with ⟨s, hsv, hsend, hsle⟩
  rcases exists_even_repeat s hsv (p := q + 1) (by omega) with
    ⟨i, j, hij, hjle, hpar, hrep⟩
  have hsp := chainVal_splice cfg hLn hHn s
    (fun k => if k ≤ i then s k else s (k + (j - i))) hij hpar hrep
    (fun k => rfl) (q + 1 - j)
  have hidx : j + (q + 1 - j) = q + 1 := by omega
  rw [hidx] at hsp
  have hr2 : (fun k => if k ≤ i then s k else s (k + (j - i)))
      (i + (q + 1 - j)) = a := by
    by_cases hjq : j = q + 1
    · have h1 : i + (q + 1 - j) = i := by omega
      rw [h1]
      show (if i ≤ i then s i else _) = a
      rw [if_pos (le_refl i), hrep, hjq, hsend]
    · show (if i + (q + 1 - j) ≤ i then _ else
        s (i + (q + 1 - j) + (j - i))) = a
      rw [if_neg (by omega)]
      have h2 : i + (q + 1 - j) + (j - i) = q + 1 := by omega
      rw [h2, hsend]
  have hA : sampSeq cfg (i + (q + 1 - j)) a ≤
      chainVal cfg (fun k => if k ≤ i then s k else s (k + (j - i)))
        (i + (q + 1 - j)) := by
    have h3 := sampSeq_le_chainVal cfg
      (fun k => if k ≤ i then s k else s (k + (j - i))) (i + (q + 1 - j))
      (fun k _ => by
        by_cases hk : k ≤ i
        · simpa [hk] using hsv k
        · simpa [hk] using hsv (k + (j - i)))
    rw [hr2] at h3
    exact h3
  have hchain : sampSeq cfg (i + (q + 1 - j)) a ≤ sampSeq cfg (q + 1) a :=
    le_trans hA (le_trans hsp hsle)
  have hrq : i + (q + 1 - j) ≤ q := by omega
  exact le_trans (sampSeq_antitone cfg hL0 hH0 ha hrq) hchain

/-! ### Termination of the alternation loop -/

lemma newOrImproved_isEmpty_of_eq {conns : List C} {prev next : C → Cost}
    (h : ∀ a ∈ conns, next a = prev a) :
    (newOrImproved conns prev next).isEmpty = true := by
  rw [List.isEmpty_iff]
  unfold newOrImproved
  rw [List.filter_eq_nil_iff]
  intro a ha
  rw [h a ha]
  simp only [Bool.and_eq_true, Bool.or_eq_true, decide_eq_true_eq]
  rintro ⟨hne, htop | hlt⟩
  · exact hne htop
  · exact not_add_one_lt_self _ hlt

lemma loop_isSome (cfg : Config C)
    (hst : ∀ a ∈ cfg.connectors, ∀ q, 2 * cfg.connectors.length ≤ q →
      sampSeq cfg (q + 1) a = sampSeq cfg q a) :
    ∀ (f t : ℕ) (P : List (C → Cost)), 1 ≤ f →
      cfg.connectors.length + 1 ≤ f + t →
      (loop cfg f (sampSeq cfg (2 * t)) P).isSome = true := by
  intro f
  induction f with
  | zero => intro t P h1 _; exact absurd h1 (by omega)
  | succ f ih =>
      intro t P _ hft
      rw [loop_succ_eq]
      by_cases hc1 : (newOrImproved cfg.connectors (sampSeq cfg (2 * t))
          (sampSeq cfg (2 * t + 1))).isEmpty
      · rw [if_pos hc1]; rfl
      · have ht : t < cfg.connectors.length := by
          by_contra h
          apply hc1
          apply newOrImproved_isEmpty_of_eq
          intro a ha
          exact hst a ha (2 * t) (by omega)
        rw [if_neg hc1]
        by_cases hc2 : (newOrImproved cfg.connectors (sampSeq cfg (2 * t + 1))
            (sampSeq cfg (2 * t + 2))).isEmpty
        · rw [if_pos hc2]; rfl
        · rw [if_neg hc2]
          have h22 : (2 : ℕ) * t + 2 = 2 * (t + 1) := by ring
          rw [h22]
          exact ih (t + 1) _ (by omega) (by omega)

/-! ### Cellwise minimum lemmas -/

lemma cellMin_le_mem {rs : List (C → Cost)} {r : C → Cost} (h : r ∈ rs)
    (x : C) : cellMin rs x ≤ r x :=
  foldr_min_le (List.mem_map.mpr ⟨r, h, rfl⟩)

lemma cellMin_eq_top_iff {rs : List (C → Cost)} {x : C} :
    cellMin rs x = ⊤ ↔ ∀ r ∈ rs, r x = ⊤ := by
  unfold cellMin
  rw [foldr_min_eq_top_iff]
  constructor
  · intro h r hr
    exact h (r x) (List.mem_map.mpr ⟨r, hr, rfl⟩)
  · intro h v hv
    rcases List.mem_map.mp hv with ⟨r, hr, rfl⟩
    exact h r hr

lemma cellMin_cases (rs : List (C → Cost)) (x : C) :
    cellMin rs x = ⊤ ∨ ∃ r ∈ rs, cellMin rs x = r x := by
  rcases foldr_min_mem (l := rs.map (fun r => r x)) with h | h
  · exact Or.inl h
  · rcases List.mem_map.mp h with ⟨r, hr, heq⟩
    exact Or.inr ⟨r, hr, heq.symm⟩

lemma composed_eq_cellMin (cfg : Config C) (x : C) :
    composed cfg x = cellMin (solvePasses cfg) x := by
  by_cases hr : rampsReached cfg
  · simp [composed, hr]
  · simp [composed, solvePasses, hr, cellMin]

/-! ### Claim theorems -/

/-- C1: for every group solve, the value recorded at any connector id in a
sheet's ramp arrival record (the `RASTERVALU` / `costLAH` samples of the
successive passes) is monotonically non-increasing across passes: once a pass
records a value, no later pass stores a higher one, and a change of stored
value is always a strict decrease. -/
theorem C1_arrival_monotone (cfg : Config C)
    (hL0 : ∀ a, cfg.dL a a = 0) (hH0 : ∀ a, cfg.dH a a = 0)
    {a : C} (ha : a ∈ cfg.connectors) {i j : ℕ} (hij : i ≤ j)
    (hj : j < (solvePasses cfg).length) :
    (solvePasses cfg).getD j (fun _ => ⊤) a ≤
      (solvePasses cfg).getD i (fun _ => ⊤) a ∧
    ((solvePasses cfg).getD j (fun _ => ⊤) a ≠
        (solvePasses cfg).getD i (fun _ => ⊤) a →
      (solvePasses cfg).getD j (fun _ => ⊤) a <
        (solvePasses cfg).getD i (fun _ => ⊤) a) := by
  rcases solvePasses_eq_range_map cfg with ⟨m, hm, heq⟩
  have hlen : (solvePasses cfg).length = m := by rw [heq]; simp
  have hget : ∀ k, k < (solvePasses cfg).length →
      (solvePasses cfg).getD k (fun _ => ⊤) = sampSeq cfg k := by
    intro k hk
    rw [hlen] at hk
    rw [heq, List.getD_eq_getElem _ _ (by simpa using hk)]
    simp
  rw [hget j hj, hget i (lt_of_le_of_lt hij hj)]
  have hle : sampSeq cfg j a ≤ sampSeq cfg i a :=
    sampSeq_antitone cfg hL0 hH0 ha hij
  exact ⟨hle, fun hne => lt_of_le_of_ne hle hne⟩

/-- C2: for every group whose pass-1 raster reaches at least one ramp point,
the alternation loop terminates, within at most `2 × (number of connectors)`
iterations (each fuel unit of `loop` is one iteration of the
`while len(notin) != 0` loop). -/
theorem C2_loop_terminates (cfg : Config C)
    (hL0 : ∀ a, cfg.dL a a = 0) (hH0 : ∀ a, cfg.dH a a = 0)
    (hLn : ∀ a b, 0 ≤ cfg.dL a b) (hHn : ∀ a b, 0 ≤ cfg.dH a b)
    (hr : rampsReached cfg = true) :
    (loop cfg (2 * cfg.connectors.length) (pass1 cfg)
      [pass1 cfg]).isSome = true := by
  have hn : 1 ≤ cfg.connectors.length := by
    rcases List.any_eq_true.mp hr with ⟨a, ha, _⟩
    exact List.length_pos.mpr (List.ne_nil_of_mem ha)
  have hstab : ∀ a ∈ cfg.connectors, ∀ q, 2 * cfg.connectors.length ≤ q →
      sampSeq cfg (q + 1) a = sampSeq cfg q a :=
    fun a ha q hq => sampSeq_stabilizes cfg hL0 hH0 hLn hHn ha hq
  have h0 : pass1 cfg = sampSeq cfg (2 * 0) := rfl
  rw [h0]
  exact loop_isSome cfg hstab (2 * cfg.connectors.length) 0
    [sampSeq cfg (2 * 0)] (by omega) (by omega)

/-- C3 (amended): with a numeric cutoff `c`, every defined cell of every pass
raster is at most `c`, and so is every defined cell of the persisted output
when the value policy keeps actual costs (`attFld = None`).  (As stated the
claim fails for the `'round'` policy — see the counterexample theorem.) -/
theorem C3_cutoff_bounds (cfg : Config C) (lookup : String → ℚ) {c : ℚ}
    (hc : cfg.cutoff = Option.some c) :
    (∀ r ∈ solvePasses cfg, ∀ x : C, r x ≠ ⊤ → r x ≤ (c : Cost)) ∧
    (∀ x : C, persisted cfg AttFld.none lookup x ≠ ⊤ →
      persisted cfg AttFld.none lookup x ≤ (c : Cost)) := by
  have hpass : ∀ r ∈ solvePasses cfg, ∀ x : C, r x ≠ ⊤ → r x ≤ (c : Cost) := by
    intro r hr x hx
    rcases solvePasses_eq_range_map cfg with ⟨m, hm, heq⟩
    rw [heq] at hr
    rcases List.mem_map.mp hr with ⟨k, _, rfl⟩
    exact sampSeq_ne_top_le_cut hc hx
  refine ⟨hpass, ?_⟩
  intro x hx
  have hp : persisted cfg AttFld.none lookup = composed cfg := rfl
  rw [hp] at hx ⊢
  rw [composed_eq_cellMin] at hx ⊢
  rcases cellMin_cases (solvePasses cfg) x with htop | ⟨r, hr, hrx⟩
  · exact absurd htop hx
  · rw [hrx] at hx ⊢
    exact hpass r hr x hx

/-- C4: for every group solve, the composed output raster is the cellwise
minimum of all pass rasters (a cell is NoData exactly when it is NoData in
every pass), and consequently its value at every cell is at most the first
(local-only) pass's value there. -/
theorem C4_composed_is_cellwise_min (cfg : Config C) (x : C) :
    composed cfg x = cellMin (solvePasses cfg) x ∧
    (composed cfg x = ⊤ ↔ ∀ r ∈ solvePasses cfg, r x = ⊤) ∧
    composed cfg x ≤ pass1 cfg x := by
  have h1 : composed cfg x = cellMin (solvePasses cfg) x := by
    by_cases hr : rampsReached cfg
    · simp [composed, hr]
    · simp [composed, solvePasses, hr, cellMin]
  refine ⟨h1, ?_, ?_⟩
  · rw [h1]; exact cellMin_eq_top_iff
  · rw [h1]
    rcases solvePasses_head cfg with ⟨t, ht⟩
    exact cellMin_le_mem (by rw [ht]; exact List.mem_cons_self _ _) x

/-- C10: when `attFld` is the string `'round'`, the output is the rounding of
the composed cost raster; the origin attribute lookup is never consulted, so a
field literally named `'round'` can never act as a constant source. -/
theorem C10_round_is_reserved (cfg : Config C) (lookup lookup2 : String → ℚ) :
    persisted cfg (AttFld.str "round") lookup =
      roundRast (composed cfg) Option.none ∧
    persisted cfg (AttFld.str "round") lookup =
      persisted cfg (AttFld.str "round") lookup2 := by
  constructor <;> simp [persisted, applyAttFld]

/-- C5: if pass 1 samples no value at any ramp point, the solver takes the
single-sheet terminal path: exactly one pass, output = that pass with the
value policy applied, and the highway surface is never consulted. -/
theorem C5_single_sheet_terminal (cfg : Config C)
    (hs : ∀ a ∈ cfg.connectors, pass1 cfg a = ⊤) :
    rampsReached cfg = false ∧
    solvePasses cfg = [pass1 cfg] ∧
    (∀ att lookup, persisted cfg att lookup =
      applyAttFld att lookup (pass1 cfg)) ∧
    (∀ dH2 : C → C → Cost,
      solvePasses { cfg with dH := dH2 } = solvePasses cfg ∧
      ∀ att lookup, persisted { cfg with dH := dH2 } att lookup =
        persisted cfg att lookup) := by
  have hr : rampsReached cfg = false := by
    apply List.any_eq_false.mpr
    intro a ha
    simp [hs a ha]
  refine ⟨hr, ?_, ?_, ?_⟩
  · simp [solvePasses, hr]
  · intro att lookup
    simp [persisted, composed, hr]
  · intro dH2
    have hp : pass1 { cfg with dH := dH2 } = pass1 cfg := rfl
    have hrr : rampsReached { cfg with dH := dH2 } = false := by
      have h2 : rampsReached { cfg with dH := dH2 } = rampsReached cfg := rfl
      rw [h2, hr]
    constructor
    · simp [solvePasses, hr, hrr, hp]
    · intro att lookup
      simp [persisted, composed, hr, hrr, hp]

/-! ### Batch orchestration lemmas -/

lemma runBatch_store_mono (P : GrpId → ℕ) (gs : List GrpId) :
    ∀ (store : List String) (x : String), x ∈ store →
      x ∈ (runBatch P gs store).1 := by
  induction gs with
  | nil => intro store x hx; exact hx
  | cons g t ih =>
      intro store x hx
      by_cases hg : rastoutName g ∈ store
      · simp only [runBatch, if_pos hg]
        exact ih store x hx
      · simp only [runBatch, if_neg hg]
        exact ih (rastoutName g :: store) x (List.mem_cons_of_mem _ hx)

lemma runBatch_name_mem (P : GrpId → ℕ) (gs : List GrpId) :
    ∀ (store : List String) (g : GrpId), g ∈ gs →
      rastoutName g ∈ (runBatch P gs store).1 := by
  induction gs with
  | nil => intro store g hg; cases hg
  | cons g0 t ih =>
      intro store g hg
      by_cases hg0 : rastoutName g0 ∈ store
      · simp only [runBatch, if_pos hg0]
        rcases List.mem_cons.mp hg with rfl | hgt
        · exact runBatch_store_mono P t store _ hg0
        · exact ih store g hgt
      · simp only [runBatch, if_neg hg0]
        rcases List.mem_cons.mp hg with rfl | hgt
        · exact runBatch_store_mono P t _ _ (List.mem_cons_self _ _)
        · exact ih _ g hgt

lemma runBatch_all_skip (P : GrpId → ℕ) (gs : List GrpId) :
    ∀ store : List String, (∀ g ∈ gs, rastoutName g ∈ store) →
      runBatch P gs store = (store, gs.map (fun g => (g, 0))) := by
  induction gs with
  | nil => intro store _; rfl
  | cons g t ih =>
      intro store hall
      have hg : rastoutName g ∈ store := hall g (List.mem_cons_self _ _)
      simp only [runBatch, if_pos hg, List.map_cons]
      rw [ih store (fun g2 hg2 => hall g2 (List.mem_cons_of_mem _ hg2))]

/-- C9: a group whose output name already exists in the store is skipped with
zero oracle calls and no new output; re-running a completed batch leaves the
store unchanged and performs zero oracle calls for every group. -/
theorem C9_skip_if_exists (P : GrpId → ℕ) (gs : List GrpId)
    (store : List String) :
    (∀ (g : GrpId) (tl : List GrpId), rastoutName g ∈ store →
      runBatch P (g :: tl) store =
        ((runBatch P tl store).1, (g, 0) :: (runBatch P tl store).2)) ∧
    runBatch P gs ((runBatch P gs store).1) =
      ((runBatch P gs store).1, gs.map (fun g => (g, 0))) := by
  constructor
  · intro g tl hg
    simp only [runBatch, if_pos hg]
  · exact runBatch_all_skip P gs _
      (fun g hg => runBatch_name_mem P gs store g hg)

/-! ### Concrete evaluations: counterexamples and witnesses.
The section-local attribute merely lets the `decide` tactic evaluate the
rational arithmetic of the model; it does not change any definition. -/

section ConcreteEvaluations

attribute [local semireducible] Rat.add Rat.mul Rat.inv Rat.sub
  Rat.ofScientific

/-- C3 counterexample: with cutoff 9.6 and the `'round'` value policy, the
persisted raster holds 10 (the half-even rounding of the composed cost 9.5)
at a defined cell, which exceeds the cutoff — so the claim's bound fails for
the final persisted raster as stated. -/
theorem C3_round_exceeds_cutoff :
    cfgRound.cutoff = Option.some (48 / 5 : ℚ) ∧
    composed cfgRound 1 = ((19 / 2 : ℚ) : Cost) ∧
    persisted cfgRound (AttFld.str "round") (fun _ => 0) 1 =
      ((10 : ℚ) : Cost) ∧
    ¬ ((10 : ℚ) : Cost) ≤ ((48 / 5 : ℚ) : Cost) := by
  refine ⟨rfl, by decide, by decide, by decide⟩

/-- C3 witness for the amended bound, at a concrete configuration with
cutoff 30. -/
theorem C3_cutoff_witness :
    cfgTwo.cutoff = Option.some (30 : ℚ) ∧
    (∀ r ∈ solvePasses cfgTwo, ∀ x : Fin 2, r x ≠ ⊤ →
      r x ≤ ((30 : ℚ) : Cost)) := by
  have hc : cfgTwo.cutoff = Option.some (30 : ℚ) := rfl
  exact ⟨hc, (C3_cutoff_bounds cfgTwo (fun _ => 0) hc).1⟩

/-- C6: evaluating the code at the failing input `attFld = 0` (an integer
constant), cutoff 20: the composed cost at cell 1 is 2.4 ≤ 20, but the
persisted value is the rounded cost 2, not the constant 0 — the Python
truthiness test `if reset_to:` skips the reset for the constant 0. -/
theorem C6_constant_zero_not_applied :
    composed cfgConst 1 = ((12 / 5 : ℚ) : Cost) ∧
    ((12 / 5 : ℚ) : Cost) ≤ ((20 : ℚ) : Cost) ∧
    persisted cfgConst (AttFld.int 0) (fun _ => 0) 1 = ((2 : ℚ) : Cost) ∧
    ¬ persisted cfgConst (AttFld.int 0) (fun _ => 0) 1 =
      ((0 : ℚ) : Cost) := by
  refine ⟨by decide, by decide, by decide, by decide⟩

/-- C7: evaluating the argument check at the failing input `attFld = 0`
(a literal constant) with `maxCost` absent: the run is not rejected, because
`if attFld:` is false for the integer 0; a nonzero constant is rejected. -/
theorem C7_attFld_zero_not_rejected :
    earlyExit (AttFld.int 0) MaxCost.none [] = false ∧
    earlyExit (AttFld.int 7) MaxCost.none [] = true := by
  exact ⟨by decide, by decide⟩

/-- C8: evaluating the argument check at a failing input: a string `attFld`
naming a field that is not among the origin features' fields, with a numeric
`maxCost`, is not rejected — `not [attFld in [...]]` tests the truthiness of
a one-element list and is always false. -/
theorem C8_missing_field_not_rejected :
    earlyExit (AttFld.str "noSuchField") (MaxCost.num 30)
      ["FID", "facil_code", "acres"] = false := by
  decide

/-- C5 witness: a group whose only ramp point is unreachable on the local
surface takes the single-sheet terminal path. -/
theorem C5_witness :
    (∀ a ∈ cfgIsolated.connectors, pass1 cfgIsolated a = ⊤) ∧
    rampsReached cfgIsolated = false ∧
    solvePasses cfgIsolated = [pass1 cfgIsolated] := by
  have hs : ∀ a ∈ cfgIsolated.connectors, pass1 cfgIsolated a = ⊤ := by
    decide
  exact ⟨hs, (C5_single_sheet_terminal cfgIsolated hs).1,
    (C5_single_sheet_terminal cfgIsolated hs).2.1⟩

/-- C1 witness: on the two-cell configuration, the ramp sample of pass 2 is
no greater than that of pass 1. -/
theorem C1_witness :
    (∀ a : Fin 2, cfgTwo.dL a a = 0) ∧
    (1 : Fin 2) ∈ cfgTwo.connectors ∧
    1 < (solvePasses cfgTwo).length ∧
    (solvePasses cfgTwo).getD 1 (fun _ => ⊤) 1 ≤
      (solvePasses cfgTwo).getD 0 (fun _ => ⊤) 1 := by
  have hL0 : ∀ a : Fin 2, cfgTwo.dL a a = 0 := by decide
  have hH0 : ∀ a : Fin 2, cfgTwo.dH a a = 0 := by decide
  have ha : (1 : Fin 2) ∈ cfgTwo.connectors := by decide
  have hj : 1 < (solvePasses cfgTwo).length := by decide
  exact ⟨hL0, ha, hj,
    (C1_arrival_monotone cfgTwo hL0 hH0 ha (by omega) hj).1⟩

/-- C2 witness: the loop terminates within `2 × 1` iterations on the two-cell
configuration. -/
theorem C2_witness :
    (∀ a : Fin 2, cfgTwo.dL a a = 0) ∧
    rampsReached cfgTwo = true ∧
    (loop cfgTwo (2 * cfgTwo.connectors.length) (pass1 cfgTwo)
      [pass1 cfgTwo]).isSome = true := by
  have hL0 : ∀ a : Fin 2, cfgTwo.dL a a = 0 := by decide
  have hH0 : ∀ a : Fin 2, cfgTwo.dH a a = 0 := by decide
  have hLn : ∀ a b : Fin 2, 0 ≤ cfgTwo.dL a b := by decide
  have hHn : ∀ a b : Fin 2, 0 ≤ cfgTwo.dH a b := by decide
  have hr : rampsReached cfgTwo = true := by decide
  exact ⟨hL0, hr, C2_loop_terminates cfgTwo hL0 hH0 hLn hHn hr⟩

/-- C9 witness: a group whose output name is already in the store is skipped
with zero oracle calls. -/
theorem C9_witness :
    rastoutName (GrpId.str "A") ∈ ["grp_A_servArea"] ∧
    runBatch (fun _ => 5) [GrpId.str "A"] ["grp_A_servArea"] =
      (["grp_A_servArea"], [(GrpId.str "A", 0)]) := by
  have h : rastoutName (GrpId.str "A") ∈ ["grp_A_servArea"] := by decide
  refine ⟨h, ?_⟩
  have h2 := (C9_skip_if_exists (fun _ => 5) [] ["grp_A_servArea"]).1
    (GrpId.str "A") [] h
  simpa [runBatch] using h2

end ConcreteEvaluations

end ServiceAreas
